import Mathlib

/-!
Verification of the `async` header-only parallel for-each library
(`inc/async.h`).  The C++ source is shallowly embedded: pure index
arithmetic becomes functions on `Nat` (with explicit `% 2^64` where the
C++ computes in `size_t` and wrap-around matters), the per-call shared
state (cancellation flag, failure cell, completed counter) becomes
explicit state passing, and concurrent accesses to the mutex-guarded
failure cell are modelled by the arrival order of the workers at the
guarded section.
-/

namespace Async

/-! ## Dynamic partitioner (`async_for_each` over iterators)

The dynamic overload computes `size = distance(begin, end)`, returns if
`size == 0`, clamps `threads = min(threads, size)`, sets
`chunk_size = size / threads`, then walks the range once, cutting chunk
`i` at `chunk_end = (i == threads - 1) ? end : chunk_begin + chunk_size`
(the forward-iterator branch advances `min(steps, distance to end)`
which yields the same boundaries).  Iterators are embedded as offsets
from `begin`, so a chunk is a half-open interval of positions `[b, e)`
inside `[0, size)`. -/

/-- One launched unit of work, as captured by the lambda in the source:
worker ordinal `i`, chunk `[b, e)` as offsets from `begin`, and
`idx_offset = i * chunk_len` (the source computes `chunk_len` as
`distance(local_chunk_begin, local_chunk_end)`), which seeds the
reported global index. -/
structure Chunk where
  ordinal : Nat
  b : Nat
  e : Nat
  idxOff : Nat
  deriving Repr, DecidableEq

/-- The chunk-cutting loop of `async_for_each` (`for (size_t i = 0;
i < threads; ++i)`), with `chunk_begin` carried forward exactly as in
the source (`chunk_begin = chunk_end;`).  `cs` is `chunk_size`, `size`
the range length, `t` the clamped thread count, `b` the current
`chunk_begin`, `i` the loop counter, and the first argument the number
of remaining iterations (`t - i`, so the recursion is structural). -/
def dynChunksAux (cs size t : Nat) : Nat → Nat → Nat → List Chunk
  | 0, _, _ => []
  | fuel + 1, b, i =>
    let e := if i = t - 1 then size else b + cs
    { ordinal := i, b := b, e := e, idxOff := i * (e - b) } ::
      dynChunksAux cs size t fuel e (i + 1)

/-- The list of units launched by the dynamic `async_for_each`: an empty
range returns immediately; otherwise `threads` is clamped to the size
and the loop above runs `t` times from `begin` (offset `0`). -/
def dynChunks (size threads : Nat) : List Chunk :=
  if size = 0 then []
  else
    let t := min threads size
    dynChunksAux (size / t) size t t 0 0

/-- The element positions a unit's loop applies `f` to on a run where no
abort is ever observed: every offset in `[b, e)`, in order. -/
def chunkElems (c : Chunk) : List Nat :=
  List.range' c.b (c.e - c.b)

/-- All element positions visited across the call (success path), in
chunk order. -/
def dynVisited (size threads : Nat) : List Nat :=
  (dynChunks size threads).flatMap chunkElems

/-- Spec-side description of chunk `i` out of `t` chunks of nominal size
`cs` over `[0, size)`: it starts at `i * cs` and ends at `(i + 1) * cs`,
except that the last chunk ends at `size`; `idxOff` is `i * chunk_len`
as the source computes it. -/
def specChunk (cs size t i : Nat) : Chunk :=
  let e := if i = t - 1 then size else (i + 1) * cs
  { ordinal := i, b := i * cs, e := e, idxOff := i * (e - i * cs) }

/-- The global indices a unit reports to the callable on an undisturbed
run: the loop seeds `size_t idx = idx_offset;` and passes `idx++` for
each element, so chunk `c` reports `idxOff, idxOff + 1, ...` for its
`e - b` elements. -/
def chunkReported (c : Chunk) : List Nat :=
  List.range' c.idxOff (c.e - c.b)

/-- All global indices reported to the callable across the call
(success path), in chunk order. -/
def dynReported (size threads : Nat) : List Nat :=
  (dynChunks size threads).flatMap chunkReported

/-- Exit status of the element loop inside one unit of work. -/
inductive UnitExit where
  | completedLoop : UnitExit
  | aborted : UnitExit
  | threw : Nat → UnitExit
  deriving Repr, DecidableEq

/-- Whether the loop exited by throwing. -/
def UnitExit.isThrew : UnitExit → Bool
  | UnitExit.threw _ => true
  | _ => false

/-- The element loop of one unit (`for (auto it = local_chunk_begin;
it != local_chunk_end; ++it)`): before each element the unit reads the
shared abort flag (modelled by `abortObs j`, the value it observes
before its `j`-th local element) and breaks if set; otherwise it
applies `f`, which either returns or throws (`throwAt j` is the
exception, if any, that the callable raises at local element `j`).
Returns the number of elements fully processed and how the loop
exited; the fuel argument is the number of remaining elements. -/
def runLoop (abortObs : Nat → Bool) (throwAt : Nat → Option Nat) :
    Nat → Nat → Nat × UnitExit
  | j, 0 => (j, UnitExit.completedLoop)
  | j, fuel + 1 =>
    if abortObs j then (j, UnitExit.aborted)
    else
      match throwAt j with
      | some ex => (j, UnitExit.threw ex)
      | none => runLoop abortObs throwAt (j + 1) fuel

/-- Observable behaviour of one unit of work. -/
structure UnitResult where
  processed : Nat
  exit : UnitExit
  incremented : Bool
  progressArg : Option Nat
  deriving Repr, DecidableEq

/-- One unit's body over a chunk of `chunkLen` elements, entered with
the shared completed counter at `prevCompleted`.  After the element
loop — whether it ran to the end or broke out on the abort flag — the
source (still inside the `try`) executes
`completed.fetch_add(1)` followed by `progress(prev_completed + 1)`;
both are skipped exactly when the loop threw, since the exception jumps
to the `catch`. -/
def runUnit (chunkLen : Nat) (abortObs : Nat → Bool)
    (throwAt : Nat → Option Nat) (prevCompleted : Nat) : UnitResult :=
  let r := runLoop abortObs throwAt 0 chunkLen
  match r.2 with
  | UnitExit.threw ex =>
    { processed := r.1, exit := UnitExit.threw ex,
      incremented := false, progressArg := none }
  | ex =>
    { processed := r.1, exit := ex,
      incremented := true, progressArg := some (prevCompleted + 1) }

/-- Fully successful execution of all launched units, sequentialised in
arrival order at the atomic counter (taken as launch order): the abort
flag is never set and the callable never throws; each unit's
progress-sink call is collected, and the shared completed counter is
threaded through. -/
def runChunksSuccess : List Chunk → Nat → List Nat
  | [], _ => []
  | c :: rest, completed =>
    let r := runUnit (c.e - c.b) (fun _ => false) (fun _ => none) completed
    (match r.progressArg with
     | some v => [v]
     | none => []) ++
      runChunksSuccess rest (if r.incremented then completed + 1 else completed)

/-- The progress-sink calls made during a fully successful dynamic
`async_for_each`, with the completed counter starting at `0`. -/
def dynProgressCalls (size threads : Nat) : List Nat :=
  runChunksSuccess (dynChunks size threads) 0

/-- Outcome of the entry computation of the dynamic `async_for_each`. -/
inductive DynResult where
  | emptyNoOp : DynResult
  | run : Nat → Nat → DynResult
  | divByZero : DynResult
  deriving Repr, DecidableEq

/-- The entry computation of the dynamic `async_for_each`: compute the
size, return immediately when it is `0`, clamp
`threads = min(threads, size)` and compute `chunk_size = size /
threads`.  In C++ that division with `threads == 0` is undefined
behaviour (integer division by zero), so the embedding makes the case
an explicit marker instead of relying on Lean's `n / 0 = 0`. -/
def dynDispatch (size threads : Nat) : DynResult :=
  if size = 0 then DynResult.emptyNoOp
  else
    let t := min threads size
    if t = 0 then DynResult.divByZero
    else DynResult.run t (size / t)

/-! ## Compile-time partitioner (`chunk_of_sequence`, `for_each_index`)

The compile-time pipeline is instantiated at `T = size_t`, so every
`constexpr` member is computed in 64-bit unsigned wrap-around
arithmetic; the embedding makes the word size explicit. -/

/-- Word size of `size_t`. -/
def W : Nat := 2 ^ 64

/-- Wrap-around `size_t` addition. -/
def add64 (a b : Nat) : Nat := (a + b) % W

/-- Wrap-around `size_t` subtraction. -/
def sub64 (a b : Nat) : Nat := (a % W + (W - b % W)) % W

/-- Wrap-around `size_t` multiplication. -/
def mul64 (a b : Nat) : Nat := (a * b) % W

/-- The six `static constexpr` members of
`chunk_of_sequence<T, N0, Nn, Ns, Ci, Cn>`. -/
structure ChunkOfSequence where
  total : Nat
  chunk_size : Nat
  offset : Nat
  count : Nat
  chunk_start : Nat
  chunk_end : Nat
  deriving Repr, DecidableEq

/-- `chunk_of_sequence<T, N0, Nn, Ns, Ci, Cn>` at `T = size_t`:
`total = (Nn - N0 + Ns - 1) / Ns`,
`chunk_size = (total + Cn - 1) / Cn`, `offset = Ci * chunk_size`,
`count = (offset + chunk_size > total) ? (total - offset) : chunk_size`,
`chunk_start = N0 + offset * Ns`,
`chunk_end = chunk_start + count * Ns`, each operation wrapping at
`2^64` exactly as the `constexpr` initialisers do. -/
def chunk_of_sequence (N0 Nn Ns Ci Cn : Nat) : ChunkOfSequence :=
  let total := sub64 (add64 (sub64 Nn N0) Ns) 1 / Ns
  let chunk_size := sub64 (add64 total Cn) 1 / Cn
  let offset := mul64 Ci chunk_size
  let count :=
    if add64 offset chunk_size > total then sub64 total offset else chunk_size
  let chunk_start := add64 N0 (mul64 offset Ns)
  let chunk_end := add64 chunk_start (mul64 count Ns)
  { total := total, chunk_size := chunk_size, offset := offset,
    count := count, chunk_start := chunk_start, chunk_end := chunk_end }

/-- `make_stepped_sequence<T, N0, Nn, Ns>`: the integer sequence
`N0 + Is * Ns` for `Is` ranging over
`make_integer_sequence<T, (Nn - N0 + Ns - 1) / Ns>`, as a list. -/
def make_stepped_sequence (N0 Nn Ns : Nat) : List Nat :=
  (List.range (sub64 (add64 (sub64 Nn N0) Ns) 1 / Ns)).map
    (fun i => add64 N0 (mul64 i Ns))

/-- The index values the callable receives for worker `Ci` of `Cn` in
the compile-time path: `async_for_each_index` instantiates the worker's
chunk type (the stepped sequence from `chunk_start` to `chunk_end`) and
calls `for_each_index<T, offset>(chunk{}, f, Is)` with
`offset = chunk_start`; inside `for_each_index` the fold invokes
`f(I + Ns)` where its template parameter `Ns` is bound to that
`offset`, so each sequence element is shifted by `chunk_start` on top
of the `chunk_start` it already contains. -/
def workerIndices (N0 Nn Ns Ci Cn : Nat) : List Nat :=
  let c := chunk_of_sequence N0 Nn Ns Ci Cn
  (make_stepped_sequence c.chunk_start c.chunk_end Ns).map
    (fun I => add64 I c.chunk_start)

/-! ## Worker-count resolution (`runtime_threads`) -/

/-- Whitespace in the C locale, as skipped by `atoi`. -/
def isCSpace (c : Char) : Bool :=
  c == ' ' || c == '\t' || c == '\n' || c == '\x0b' || c == '\x0c' || c == '\r'

/-- Digit-consuming loop of the C library `atoi` (overflow is not
modelled: the thread-count overrides of interest are far below
`INT_MAX`). -/
def atoiDigits : List Char → Int → Int
  | [], acc => acc
  | c :: cs, acc =>
    if c.isDigit then atoiDigits cs (acc * 10 + ((c.toNat : Int) - 48))
    else acc

/-- The C library `atoi` over the characters of the string: skip
leading whitespace, accept one optional sign, consume leading digits;
a string with no leading digits yields `0`. -/
def atoiAux : List Char → Int
  | [] => 0
  | c :: cs =>
    if isCSpace c then atoiAux cs
    else if c == '-' then - atoiDigits cs 0
    else if c == '+' then atoiDigits cs 0
    else if c.isDigit then atoiDigits (c :: cs) 0
    else 0

/-- The C library `atoi` on a string. -/
def atoi (s : String) : Int := atoiAux s.data

/-- One call to `runtime_threads()`.  The configuration macros
`ASYNC_MIN_THREADS`, `ASYNC_MAX_THREADS` (`int` constants) and the
compiled-in default `threads` are parameters; the function-local
`static size_t _threads = 0;` is modelled as cache state passed in and
returned.  The result triple is the returned value, the new cache, and
whether this call consulted `getenv`.  When the cache is `0` the
source consults the environment: if the variable is present it stores
`min(ASYNC_MAX_THREADS, max(ASYNC_MIN_THREADS, atoi(env)))`, otherwise
the compiled-in default; a nonzero cache is returned unchanged without
consulting the environment. -/
def runtime_threads (minT maxT : Int) (defaultT : Nat)
    (env : Option String) (cache : Nat) : Nat × Nat × Bool :=
  if cache = 0 then
    match env with
    | some s =>
      let v := (min maxT (max minT (atoi s))).toNat
      (v, v, true)
    | none => (defaultT, defaultT, true)
  else (cache, cache, false)

/-! ## Failure aggregation and join protocol

One call shares a cancellation flag (`std::atomic<bool> abort`) and a
mutex-guarded exception cell (`std::exception_ptr ex_ptr`).  The mutex
serialises all accesses to the cell, so a concurrent execution is
modelled by the total arrival order of the workers at the guarded
section; exceptions are labelled by numbers. -/

/-- Shared failure-aggregation state of one call. -/
structure FailState where
  abort : Bool
  cell : Option Nat
  deriving Repr, DecidableEq

/-- The guarded handler that both `catch (...)` blocks run (worker-side
after an element threw, and join-side after `fut.get()` threw): if the
abort flag is clear, take the lock, and only if the cell is still empty
store the exception and set the flag. -/
def recordFailure (s : FailState) (ex : Nat) : FailState :=
  if s.abort then s
  else
    match s.cell with
    | some _ => s
    | none => { abort := true, cell := some ex }

/-- Apply one observed event to the shared state: `none` is a worker
(or a `get`) that raised nothing, `some ex` one whose exception reached
the guarded handler. -/
def applyEvent (s : FailState) (ev : Option Nat) : FailState :=
  match ev with
  | none => s
  | some ex => recordFailure s ex

/-- The worker phase: the units' arrivals at the guarded section, in
arrival order. -/
def runUnits (s : FailState) (events : List (Option Nat)) : FailState :=
  events.foldl applyEvent s

/-- The join loop: the caller calls `fut.get()` on every handle in
launch order, folding any failure `get` surfaces through the same
guarded handler; returns the final state and the number of handles
waited on. -/
def joinAll (s : FailState) : List (Option Nat) → FailState × Nat
  | [] => (s, 0)
  | ev :: rest =>
    let r := joinAll (applyEvent s ev) rest
    (r.1, r.2 + 1)

/-- The failure protocol of one whole call: fresh state, worker events,
join loop, then `if (ex_ptr) std::rethrow_exception(ex_ptr);`. -/
def protocolOutcome (unitEvents joinEvents : List (Option Nat)) :
    Except Nat Unit :=
  let s1 := runUnits { abort := false, cell := none } unitEvents
  let s2 := (joinAll s1 joinEvents).1
  match s2.cell with
  | some ex => Except.error ex
  | none => Except.ok ()

/-- The first failure among a list of events, in order. -/
def firstFailure (events : List (Option Nat)) : Option Nat :=
  events.findSome? id

theorem dynChunksAux_eq (cs size t : Nat) :
    ∀ n i, i + n = t →
      dynChunksAux cs size t n (i * cs) i =
        (List.range' i n).map (specChunk cs size t) := by
  intro n
  induction n with
  | zero =>
    intro i hi
    simp [dynChunksAux]
  | succ m ih =>
    intro i hi
    rw [dynChunksAux]
    have hrng : List.range' i (m + 1) = i :: List.range' (i + 1) m :=
      List.range'_succ i m 1
    rw [hrng, List.map_cons]
    by_cases hlast : i = t - 1
    · have hm : m = 0 := by omega
      subst hm
      simp only [if_pos hlast, dynChunksAux, specChunk, List.range'_zero,
        List.map_nil]
    · have harith : i * cs + cs = (i + 1) * cs := by ring
      have htail := ih (i + 1) (by omega)
      simp only [if_neg hlast, harith, htail, specChunk]

theorem dynChunks_eq (size threads : Nat) (hs : 0 < size) :
    dynChunks size threads =
      (List.range (min threads size)).map
        (specChunk (size / min threads size) size (min threads size)) := by
  unfold dynChunks
  rw [if_neg (by omega)]
  have h0 : (0 : Nat) = 0 * (size / min threads size) := by simp
  rw [List.range_eq_range']
  calc dynChunksAux (size / min threads size) size (min threads size)
        (min threads size) 0 0
      = dynChunksAux (size / min threads size) size (min threads size)
          (min threads size) (0 * (size / min threads size)) 0 := by rw [← h0]
    _ = (List.range' 0 (min threads size)).map
          (specChunk (size / min threads size) size (min threads size)) :=
        dynChunksAux_eq _ _ _ (min threads size) 0 (by omega)

theorem clamp_pos (size threads : Nat) (hs : 0 < size) (ht : 0 < threads) :
    0 < min threads size ∧ min threads size ≤ size ∧
      0 < size / min threads size ∧
      min threads size * (size / min threads size) ≤ size := by
  have ht' : 0 < min threads size := by omega
  have hts : min threads size ≤ size := Nat.min_le_right _ _
  refine ⟨ht', hts, Nat.div_pos hts ht', ?_⟩
  calc min threads size * (size / min threads size)
      = size / min threads size * min threads size := Nat.mul_comm _ _
    _ ≤ size := Nat.div_mul_le_self _ _

theorem dynVisitedUpto (cs size t : Nat) (ht : 0 < t)
    (hmul : t * cs ≤ size) :
    ∀ k, k ≤ t →
      ((List.range k).map (specChunk cs size t)).flatMap chunkElems =
        List.range' 0 (if k = t then size else k * cs) := by
  intro k
  induction k with
  | zero =>
    intro hk
    have h0 : (0 : Nat) ≠ t := by omega
    simp [if_neg h0]
  | succ k ih =>
    intro hk
    have hkt : k < t := by omega
    rw [List.range_succ, List.map_append, List.flatMap_append, ih (by omega)]
    rw [if_neg (by omega)]
    simp only [List.map_cons, List.map_nil, List.flatMap_cons, List.flatMap_nil,
      List.append_nil]
    by_cases hlast : k = t - 1
    · have hkt' : k + 1 = t := by omega
      rw [if_pos hkt']
      simp only [specChunk, chunkElems, if_pos hlast]
      have hle : k * cs ≤ size := by
        calc k * cs ≤ t * cs := Nat.mul_le_mul_right _ (by omega)
          _ ≤ size := hmul
      have := List.range'_append 0 (k * cs) (size - k * cs) 1
      simp only [Nat.one_mul, Nat.zero_add] at this
      rw [this]
      congr 1
      omega
    · have hkt' : k + 1 ≠ t := by omega
      rw [if_neg hkt']
      simp only [specChunk, chunkElems, if_neg hlast]
      have hsub : (k + 1) * cs - k * cs = cs := by
        have : (k + 1) * cs = k * cs + cs := by ring
        omega
      rw [hsub]
      have := List.range'_append 0 (k * cs) cs 1
      simp only [Nat.one_mul, Nat.zero_add] at this
      rw [this]
      congr 1
      ring

theorem dynVisited_eq_range (size threads : Nat)
    (hs : 0 < size) (ht : 0 < threads) :
    dynVisited size threads = List.range size := by
  obtain ⟨ht', hts, hcs, hmul⟩ := clamp_pos size threads hs ht
  unfold dynVisited
  rw [dynChunks_eq size threads hs]
  rw [dynVisitedUpto (size / min threads size) size (min threads size)
    ht' hmul (min threads size) (le_refl _)]
  rw [if_pos rfl, List.range_eq_range']

theorem specChunk_dropLast_sizes (cs size t : Nat) (ht : 0 < t) :
    (((List.range t).map (specChunk cs size t)).dropLast).map
        (fun c => c.e - c.b) = List.replicate (t - 1) cs := by
  obtain ⟨n, rfl⟩ : ∃ n, t = n + 1 := ⟨t - 1, by omega⟩
  rw [List.range_succ, List.map_append]
  simp only [List.map_cons, List.map_nil]
  rw [List.dropLast_concat, List.map_map]
  have hrepl : n + 1 - 1 = n := by omega
  rw [hrepl]
  refine List.eq_replicate_iff.mpr ⟨by simp, ?_⟩
  intro a ha
  rw [List.mem_map] at ha
  obtain ⟨i, hi, hia⟩ := ha
  rw [List.mem_range] at hi
  have hne : i ≠ n + 1 - 1 := by omega
  subst hia
  simp only [Function.comp, specChunk, if_neg hne]
  have : (i + 1) * cs = i * cs + cs := by ring
  omega

theorem specChunk_getLast (cs size t : Nat) (ht : 0 < t) :
    (((List.range t).map (specChunk cs size t)).getLast?).map Chunk.e =
      some size := by
  obtain ⟨n, rfl⟩ : ∃ n, t = n + 1 := ⟨t - 1, by omega⟩
  rw [List.range_succ, List.map_append]
  simp only [List.map_cons, List.map_nil]
  rw [List.getLast?_concat]
  have hlast : n = n + 1 - 1 := by omega
  simp only [specChunk, if_neg (by omega : ¬ n ≠ n + 1 - 1)]
  simp [← hlast]

/-- C1.  Dynamic partitioning: with `t = min(threads, size)` and
`cs = size / t` (integer division), `async_for_each` launches exactly
`t` units; chunk `i` starts at `i * cs` and every non-last chunk ends at
`(i + 1) * cs` (so each has exactly `cs` elements); the last chunk's end
is exactly the global end `size`; and the positions visited across all
chunks, in order, are exactly `0, 1, ..., size - 1`, so the chunks are
contiguous, non-overlapping, gap-free, their union is `[begin, end)`,
and the callable is applied to every element of the range exactly
once. -/
theorem dyn_partition_correct (size threads : Nat)
    (hs : 0 < size) (ht : 0 < threads) :
    (dynChunks size threads).length = min threads size ∧
    dynChunks size threads =
      (List.range (min threads size)).map
        (specChunk (size / min threads size) size (min threads size)) ∧
    ((dynChunks size threads).dropLast).map (fun c => c.e - c.b) =
      List.replicate (min threads size - 1) (size / min threads size) ∧
    ((dynChunks size threads).getLast?).map Chunk.e = some size ∧
    dynVisited size threads = List.range size := by
  obtain ⟨ht', hts, hcs, hmul⟩ := clamp_pos size threads hs ht
  have heq := dynChunks_eq size threads hs
  refine ⟨by rw [heq]; simp, heq, ?_, ?_, dynVisited_eq_range size threads hs ht⟩
  · rw [heq]
    exact specChunk_dropLast_sizes _ _ _ ht'
  · rw [heq]
    exact specChunk_getLast _ _ _ ht'

/-- C2 (code bug, evaluation at the failing input).  For a range of
size `3` with `threads = 2` the claim says the last chunk's recorded
global starting index is `chunk_ordinal * chunk_size = 1 * (3 / 2) = 1`
and the union of reported indices is `[0, 3)`.  The source instead
computes `idx_offset = i * chunk_len` where `chunk_len` is the chunk's
own length — `3` for the remainder-absorbing last chunk — so it records
`2`, and the reported indices are `{0, 2, 3}`: index `1` is never
reported and index `3` lies outside the range. -/
theorem dyn_global_index_bug :
    dynChunks 3 2 =
      [{ ordinal := 0, b := 0, e := 1, idxOff := 0 },
       { ordinal := 1, b := 1, e := 3, idxOff := 2 }] ∧
    ((dynChunks 3 2).getLast?).map Chunk.idxOff = some 2 ∧
    1 * (3 / min 2 3) = 1 ∧
    dynReported 3 2 = [0, 2, 3] ∧
    dynReported 3 2 ≠ List.range 3 := by decide

/-- Witness for C1 at `size = 5`, `threads = 2`. -/
theorem dyn_partition_correct_witness :
    (dynChunks 5 2).length = min 2 5 ∧
    dynChunks 5 2 =
      (List.range (min 2 5)).map (specChunk (5 / min 2 5) 5 (min 2 5)) ∧
    ((dynChunks 5 2).dropLast).map (fun c => c.e - c.b) =
      List.replicate (min 2 5 - 1) (5 / min 2 5) ∧
    ((dynChunks 5 2).getLast?).map Chunk.e = some 5 ∧
    dynVisited 5 2 = List.range 5 :=
  dyn_partition_correct 5 2 (by decide) (by decide)

/-- C5 (counterexample).  A unit of one element that observes the abort
flag before its first element stops early (`exit = aborted`,
`processed = 0 < 1`), yet it still increments the completed counter and
still calls the progress sink with the post-increment value `1` — the
source falls through from the `break` to `completed.fetch_add(1)` and
`progress(...)`, contradicting the claim that a cancelled unit does
neither. -/
theorem unit_cancel_still_increments :
    (runUnit 1 (fun _ => true) (fun _ => none) 0).exit = UnitExit.aborted ∧
    (runUnit 1 (fun _ => true) (fun _ => none) 0).processed = 0 ∧
    (runUnit 1 (fun _ => true) (fun _ => none) 0).incremented = true ∧
    (runUnit 1 (fun _ => true) (fun _ => none) 0).progressArg = some 1 := by
  decide

/-- C5 (amended).  A unit increments the shared completed counter and
invokes the progress sink with the post-increment value whenever its
element loop exits without throwing — whether it completed its full
chunk or broke out early on the cancellation flag; only a unit whose
callable threw skips both. -/
theorem unit_increment_iff_no_throw (chunkLen : Nat) (abortObs : Nat → Bool)
    (throwAt : Nat → Option Nat) (prev : Nat) :
    (runUnit chunkLen abortObs throwAt prev).incremented =
      !(runUnit chunkLen abortObs throwAt prev).exit.isThrew ∧
    (runUnit chunkLen abortObs throwAt prev).progressArg =
      (if (runUnit chunkLen abortObs throwAt prev).exit.isThrew then none
       else some (prev + 1)) := by
  unfold runUnit
  rcases hr : runLoop abortObs throwAt 0 chunkLen with ⟨p, ex⟩
  cases ex <;> simp [UnitExit.isThrew]

/-- C7.  On a fully successful run (no element invocation throws, the
abort flag stays clear), the progress sink is called exactly once per
worker — `min(threads, size)` times in all — and the values it
receives, in arrival order at the atomic counter, are
`1, 2, ..., min(threads, size)`: strictly increasing and reaching the
actual worker count. -/
theorem dyn_progress_success (size threads : Nat)
    (hs : 0 < size) (ht : 0 < threads) :
    dynProgressCalls size threads = List.range' 1 (min threads size) ∧
    (dynProgressCalls size threads).length = min threads size ∧
    List.Chain' (fun a b => a < b) (dynProgressCalls size threads) ∧
    (dynProgressCalls size threads).getLast? = some (min threads size) := by
  obtain ⟨ht', hts, hcs, hmul⟩ := clamp_pos size threads hs ht
  have hrun : ∀ (cs : List Chunk) (k : Nat),
      runChunksSuccess cs k = List.range' (k + 1) cs.length := by
    intro cs
    induction cs with
    | nil => intro k; simp [runChunksSuccess]
    | cons c rest ih =>
      intro k
      rw [runChunksSuccess]
      have hclean : runUnit (c.e - c.b) (fun _ => false) (fun _ => none) k =
          { processed := c.e - c.b, exit := UnitExit.completedLoop,
            incremented := true, progressArg := some (k + 1) } := by
        unfold runUnit
        have hloop : ∀ fuel j, runLoop (fun _ => false) (fun _ => none) j fuel =
            (j + fuel, UnitExit.completedLoop) := by
          intro fuel
          induction fuel with
          | zero => intro j; simp [runLoop]
          | succ m ihm =>
            intro j
            rw [runLoop]
            simp only [Bool.false_eq_true, if_false, ihm]
            congr 1
            omega
        rw [hloop]
        simp
      rw [hclean]
      simp [ih (k + 1), List.range'_succ]
  have hlen : (dynChunks size threads).length = min threads size := by
    rw [dynChunks_eq size threads hs]
    simp
  have hcalls : dynProgressCalls size threads =
      List.range' 1 (min threads size) := by
    unfold dynProgressCalls
    rw [hrun, hlen]
  refine ⟨hcalls, by rw [hcalls]; simp, ?_, ?_⟩
  · rw [hcalls]
    exact List.Pairwise.chain' (List.pairwise_lt_range' 1 (min threads size))
  · rw [hcalls]
    obtain ⟨n, hn⟩ : ∃ n, min threads size = n + 1 := ⟨min threads size - 1, by omega⟩
    rw [hn, List.range'_concat]
    rw [List.getLast?_concat]
    congr 1
    omega

/-- Witness for C7: a 2048-element range split across 4 workers has its
progress sink called with `1, 2, 3, 4`, reaching `4`. -/
theorem dyn_progress_success_witness :
    dynProgressCalls 2048 4 = List.range' 1 (min 4 2048) ∧
    (dynProgressCalls 2048 4).length = min 4 2048 ∧
    List.Chain' (fun a b => a < b) (dynProgressCalls 2048 4) ∧
    (dynProgressCalls 2048 4).getLast? = some (min 4 2048) :=
  dyn_progress_success 2048 4 (by decide) (by decide)

/-- C10.  With a non-empty range, the entry computation of the dynamic
`async_for_each` hits the division by zero `size / threads` exactly
when the caller passes `threads = 0`: the clamp `min(threads, size)`
only ever reduces the thread count (it never raises a zero upward), so
the function is well-defined only under the unstated precondition
`threads ≥ 1`. -/
theorem dyn_threads_zero_div (size threads : Nat) (hs : 0 < size) :
    (dynDispatch size threads = DynResult.divByZero ↔ threads = 0) ∧
    min threads size ≤ threads := by
  have h1 : ¬ size = 0 := by omega
  refine ⟨?_, Nat.min_le_left _ _⟩
  simp only [dynDispatch, if_neg h1]
  by_cases h0 : threads = 0
  · subst h0
    simp
  · have hm : ¬ min threads size = 0 := by omega
    rw [if_neg hm]
    simp [h0]

/-- Witness for C10 at `size = 5`, `threads = 0`: the division by zero
is reached. -/
theorem dyn_threads_zero_div_witness :
    (dynDispatch 5 0 = DynResult.divByZero ↔ 0 = 0) ∧ min 0 5 ≤ 0 :=
  dyn_threads_zero_div 5 0 (by decide)

/-- C3 (code bug, evaluation at the claimed instantiation).  For
`(T = size_t, start = 0, end = 100, step = 1, threads = 3)` the three
workers do receive `{34, 34, 32}` invocations, and worker `0` receives
`0..33`; but because `for_each_index<T, offset>` adds its template
parameter (bound to `chunk_start`) to sequence values that already
start at `chunk_start`, worker `1` receives `68..101` instead of
`34..67` and worker `2` receives `136..167` instead of `68..99`, so the
set of index values handed to the callable is not `{0,...,99}`. -/
theorem compile_time_index_bug :
    (workerIndices 0 100 1 0 3).length = 34 ∧
    (workerIndices 0 100 1 1 3).length = 34 ∧
    (workerIndices 0 100 1 2 3).length = 32 ∧
    workerIndices 0 100 1 0 3 = List.range' 0 34 ∧
    workerIndices 0 100 1 1 3 = List.range' 68 34 ∧
    workerIndices 0 100 1 2 3 = List.range' 136 32 ∧
    (workerIndices 0 100 1 0 3 ++
      (workerIndices 0 100 1 1 3 ++ workerIndices 0 100 1 2 3)) ≠
      List.range 100 := by decide

/-- C6 (code bug, evaluation at the failing instantiation).  For
`(N0 = 0, Nn = 5, Ns = 1, Cn = 4)` — unsigned, `N0 ≤ Nn`, `Ns ≥ 1`,
`Cn ≥ 1`, and worker ordinal `Ci = 3 < Cn`, with `Cn` not even
exceeding the total of `5` indices — `offset = 3 * 2 = 6` overshoots
`total = 5`, the guarded branch computes `total - offset` anyway, and
the unsigned subtraction wraps to `2^64 - 1`: the count is neither `0`
nor within `offset + count ≤ total`. -/
theorem chunk_of_sequence_count_wraps :
    (chunk_of_sequence 0 5 1 3 4).total = 5 ∧
    (chunk_of_sequence 0 5 1 3 4).chunk_size = 2 ∧
    (chunk_of_sequence 0 5 1 3 4).offset = 6 ∧
    (chunk_of_sequence 0 5 1 3 4).count = 2 ^ 64 - 1 ∧
    ¬ ((chunk_of_sequence 0 5 1 3 4).offset +
        (chunk_of_sequence 0 5 1 3 4).count ≤
        (chunk_of_sequence 0 5 1 3 4).total) := by decide

theorem sub64_self (a : Nat) : sub64 a a = 0 := by
  unfold sub64
  have hlt : a % W < W := Nat.mod_lt _ (by norm_num [W])
  rw [Nat.add_sub_cancel' (Nat.le_of_lt hlt), Nat.mod_self]

theorem sub64_one (x : Nat) (h1 : 1 ≤ x) (hx : x < W) : sub64 x 1 = x - 1 := by
  unfold sub64
  have hW : 1 ≤ W := by norm_num [W]
  rw [Nat.mod_eq_of_lt hx, Nat.mod_eq_of_lt (show (1 : Nat) < W by norm_num [W])]
  have hsplit : x + (W - 1) = W + (x - 1) := by omega
  rw [hsplit, Nat.add_mod_left, Nat.mod_eq_of_lt (by omega)]

theorem add64_zero_small (x : Nat) (hx : x < W) : add64 0 x = x := by
  unfold add64
  rw [Nat.zero_add, Nat.mod_eq_of_lt hx]

theorem chunk_of_sequence_empty (N0 Ns Ci Cn : Nat)
    (hNs : 0 < Ns) (hNsW : Ns < W) (hCn : 0 < Cn) (hCnW : Cn < W) :
    chunk_of_sequence N0 N0 Ns Ci Cn =
      { total := 0, chunk_size := 0, offset := 0, count := 0,
        chunk_start := N0 % W, chunk_end := N0 % W } := by
  have h1 : sub64 N0 N0 = 0 := sub64_self N0
  have h2 : add64 0 Ns = Ns := add64_zero_small Ns hNsW
  have h3 : sub64 Ns 1 = Ns - 1 := sub64_one Ns hNs hNsW
  have h4 : (Ns - 1) / Ns = 0 := Nat.div_eq_of_lt (by omega)
  have h5 : add64 0 Cn = Cn := add64_zero_small Cn hCnW
  have h6 : sub64 Cn 1 = Cn - 1 := sub64_one Cn hCn hCnW
  have h7 : (Cn - 1) / Cn = 0 := Nat.div_eq_of_lt (by omega)
  have h8 : N0 % W % W = N0 % W := Nat.mod_mod_of_dvd N0 dvd_rfl
  simp only [chunk_of_sequence, h1, h2, h3, h4, h5, h6, h7]
  simp [mul64, add64, h8]

theorem make_stepped_sequence_self (x Ns : Nat)
    (hNs : 0 < Ns) (hNsW : Ns < W) :
    make_stepped_sequence x x Ns = [] := by
  unfold make_stepped_sequence
  rw [sub64_self, add64_zero_small Ns hNsW, sub64_one Ns hNs hNsW,
    Nat.div_eq_of_lt (by omega)]
  rfl

/-- C9.  Empty ranges are no-ops.  Dynamic path with `begin == end`
(size `0`): no chunks are built, no unit is launched, the callable is
applied to no position, the progress sink is never called, the entry
computation returns immediately, and with no launched units the failure
protocol returns normally.  Compile-time form with `start == end`: every
worker's chunk has `count = 0` and its stepped sequence is empty, so
the callable is invoked zero times. -/
theorem empty_range_noop (threads N0 Ns Ci Cn : Nat)
    (hNs : 0 < Ns) (hNsW : Ns < W) (hCn : 0 < Cn) (hCnW : Cn < W) :
    dynChunks 0 threads = [] ∧
    dynVisited 0 threads = [] ∧
    dynProgressCalls 0 threads = [] ∧
    dynDispatch 0 threads = DynResult.emptyNoOp ∧
    protocolOutcome [] [] = Except.ok () ∧
    (chunk_of_sequence N0 N0 Ns Ci Cn).count = 0 ∧
    workerIndices N0 N0 Ns Ci Cn = [] := by
  have hchunk := chunk_of_sequence_empty N0 Ns Ci Cn hNs hNsW hCn hCnW
  have hdyn : dynChunks 0 threads = [] := by
    unfold dynChunks
    rw [if_pos rfl]
  refine ⟨hdyn, ?_, ?_, ?_, rfl, ?_, ?_⟩
  · unfold dynVisited
    rw [hdyn]
    rfl
  · unfold dynProgressCalls
    rw [hdyn]
    rfl
  · unfold dynDispatch
    rw [if_pos rfl]
  · rw [hchunk]
  · unfold workerIndices
    rw [hchunk]
    show (make_stepped_sequence (N0 % W) (N0 % W) Ns).map
      (fun I => add64 I (N0 % W)) = []
    rw [make_stepped_sequence_self (N0 % W) Ns hNs hNsW]
    rfl

/-- Witness for C9 at `threads = 3`, `N0 = Nn = 7`, `Ns = 2`,
`Ci = 1`, `Cn = 3`. -/
theorem empty_range_noop_witness :
    dynChunks 0 3 = [] ∧
    dynVisited 0 3 = [] ∧
    dynProgressCalls 0 3 = [] ∧
    dynDispatch 0 3 = DynResult.emptyNoOp ∧
    protocolOutcome [] [] = Except.ok () ∧
    (chunk_of_sequence 7 7 2 1 3).count = 0 ∧
    workerIndices 7 7 2 1 3 = [] :=
  empty_range_noop 3 7 2 1 3 (by decide) (by decide) (by decide) (by decide)

/-- C8 (counterexample).  With the compiled-in configuration
(`ASYNC_MIN_THREADS = 1`, `ASYNC_MAX_THREADS = 64`,
`ASYNC_NUM_THREADS = 4`) a present-but-invalid override does not fall
back to the compiled-in default `4`: `atoi` yields `0` for the
non-numeric `"abc"` and `-3` for the non-positive `"-3"`, and the
clamp `min(64, max(1, ·))` turns both into `1` — the configured
minimum, not the default. -/
theorem runtime_threads_invalid_env :
    (runtime_threads 1 64 4 (some "abc") 0).1 = 1 ∧
    (runtime_threads 1 64 4 (some "abc") 0).1 ≠ 4 ∧
    (runtime_threads 1 64 4 (some "-3") 0).1 = 1 ∧
    (runtime_threads 1 64 4 (some "-3") 0).1 ≠ 4 := by decide

/-- C8 (amended).  The environment override is consulted at most once
per process lifetime whenever the configured minimum is at least `1`
and the compiled-in default is positive (the resolved value is then
nonzero, so it is cached and never invalidated: a second call returns
the cached value without consulting the environment).  A present
override resolves to `min(max_threads, max(min_threads, atoi(value)))`
— in particular it is clamped into `[min_threads, max_threads]`, and
an invalid (non-numeric or non-positive) value resolves to
`min_threads`, not to the compiled-in default; only an absent variable
falls back to the compiled-in default. -/
theorem runtime_threads_resolution (minT maxT : Int) (defaultT : Nat)
    (env : Option String) (hmin : 1 ≤ minT) (hmax : minT ≤ maxT)
    (hdef : 0 < defaultT) :
    (runtime_threads minT maxT defaultT env 0).2.2 = true ∧
    (runtime_threads minT maxT defaultT env 0).1 =
      (match env with
       | some s => (min maxT (max minT (atoi s))).toNat
       | none => defaultT) ∧
    (env.isSome = true →
      minT.toNat ≤ (runtime_threads minT maxT defaultT env 0).1 ∧
      (runtime_threads minT maxT defaultT env 0).1 ≤ maxT.toNat) ∧
    0 < (runtime_threads minT maxT defaultT env 0).2.1 ∧
    (runtime_threads minT maxT defaultT env
      (runtime_threads minT maxT defaultT env 0).2.1).2.2 = false ∧
    (runtime_threads minT maxT defaultT env
      (runtime_threads minT maxT defaultT env 0).2.1).1 =
      (runtime_threads minT maxT defaultT env 0).1 := by
  cases env with
  | none =>
    have h1 : runtime_threads minT maxT defaultT none 0 =
        (defaultT, defaultT, true) := by
      unfold runtime_threads
      rw [if_pos rfl]
    have h2 : runtime_threads minT maxT defaultT none defaultT =
        (defaultT, defaultT, false) := by
      unfold runtime_threads
      rw [if_neg (by omega)]
    refine ⟨by rw [h1], by rw [h1], by simp, by rw [h1]; exact hdef, ?_, ?_⟩
    · simp [h1, h2]
    · simp [h1, h2]
  | some s =>
    have hlo : minT ≤ min maxT (max minT (atoi s)) :=
      le_min hmax (le_max_left _ _)
    have hhi : min maxT (max minT (atoi s)) ≤ maxT := min_le_left _ _
    have hpos : 0 < (min maxT (max minT (atoi s))).toNat := by omega
    have h1 : runtime_threads minT maxT defaultT (some s) 0 =
        ((min maxT (max minT (atoi s))).toNat,
         (min maxT (max minT (atoi s))).toNat, true) := by
      unfold runtime_threads
      rw [if_pos rfl]
    have h2 : runtime_threads minT maxT defaultT (some s)
        (min maxT (max minT (atoi s))).toNat =
        ((min maxT (max minT (atoi s))).toNat,
         (min maxT (max minT (atoi s))).toNat, false) := by
      unfold runtime_threads
      rw [if_neg (by omega)]
    refine ⟨by rw [h1], by rw [h1], ?_, by rw [h1]; exact hpos, ?_, ?_⟩
    · intro _
      rw [h1]
      constructor <;> simp only [] <;> omega
    · simp [h1, h2]
    · simp [h1, h2]

/-- Witness for C8 (amended) at the compiled-in configuration and a
valid override `"8"`. -/
theorem runtime_threads_resolution_witness :
    (runtime_threads 1 64 4 (some "8") 0).2.2 = true ∧
    (runtime_threads 1 64 4 (some "8") 0).1 =
      (match some "8" with
       | some s => (min (64 : Int) (max 1 (atoi s))).toNat
       | none => 4) ∧
    ((some "8").isSome = true →
      (1 : Int).toNat ≤ (runtime_threads 1 64 4 (some "8") 0).1 ∧
      (runtime_threads 1 64 4 (some "8") 0).1 ≤ (64 : Int).toNat) ∧
    0 < (runtime_threads 1 64 4 (some "8") 0).2.1 ∧
    (runtime_threads 1 64 4 (some "8")
      (runtime_threads 1 64 4 (some "8") 0).2.1).2.2 = false ∧
    (runtime_threads 1 64 4 (some "8")
      (runtime_threads 1 64 4 (some "8") 0).2.1).1 =
      (runtime_threads 1 64 4 (some "8") 0).1 :=
  runtime_threads_resolution 1 64 4 (some "8") (by decide) (by decide)
    (by decide)

theorem joinAll_spec (je : List (Option Nat)) :
    ∀ s, (joinAll s je).2 = je.length ∧
      (joinAll s je).1 = je.foldl applyEvent s := by
  induction je with
  | nil => intro s; exact ⟨rfl, rfl⟩
  | cons ev rest ih =>
    intro s
    rw [joinAll]
    refine ⟨?_, ?_⟩
    · simp [(ih (applyEvent s ev)).1]
    · simp [(ih (applyEvent s ev)).2]

theorem foldl_cell (events : List (Option Nat)) :
    ∀ s : FailState, s.abort = s.cell.isSome →
      (events.foldl applyEvent s).cell = s.cell.or (firstFailure events) := by
  induction events with
  | nil =>
    intro s hinv
    simp [firstFailure]
  | cons ev rest ih =>
    intro s hinv
    rw [List.foldl_cons]
    cases ev with
    | none =>
      simp only [applyEvent]
      rw [ih s hinv]
      simp [firstFailure]
    | some ex =>
      simp only [applyEvent]
      rcases hc : s.cell with _ | e0
      · have habort : s.abort = false := by rw [hinv, hc]; rfl
        have hrec : recordFailure s ex = { abort := true, cell := some ex } := by
          unfold recordFailure
          rw [habort, hc]
          simp
        rw [hrec, ih _ (by simp)]
        simp [firstFailure, hc]
      · have habort : s.abort = true := by rw [hinv, hc]; rfl
        have hrec : recordFailure s ex = s := by
          unfold recordFailure
          rw [habort]
          simp
        rw [hrec, ih s hinv]
        simp [firstFailure, hc]

/-- C4.  Failure aggregation for any arrival order of worker failures
(`ue`, the unit-side arrivals at the guarded section, `none` for a
worker that raised nothing) and any join-side infrastructure failures
(`je`, one entry per launched handle): the join loop waits on every
handle (the pair's second component counts the `get` calls, and it
always equals the number of handles, so an early failure never
shortcuts the loop); the failure cell after the join loop holds exactly
the first failure to arrive at the guarded section — it is written at
most once, the first writer wins and every later failure is silently
dropped, with join-side failures folded in by the same rule; and the
call re-raises exactly the stored failure after the join loop, or
returns normally when the cell is still empty. -/
theorem failure_protocol_correct (ue je : List (Option Nat)) :
    (joinAll (runUnits { abort := false, cell := none } ue) je).2 =
      je.length ∧
    (joinAll (runUnits { abort := false, cell := none } ue) je).1.cell =
      firstFailure (ue ++ je) ∧
    protocolOutcome ue je =
      (match firstFailure (ue ++ je) with
       | some ex => Except.error ex
       | none => Except.ok ()) := by
  obtain ⟨hcount, hstate⟩ :=
    joinAll_spec je (runUnits { abort := false, cell := none } ue)
  have hcell : (joinAll (runUnits { abort := false, cell := none } ue) je).1.cell =
      firstFailure (ue ++ je) := by
    rw [hstate]
    unfold runUnits
    rw [← List.foldl_append]
    rw [foldl_cell (ue ++ je) { abort := false, cell := none } rfl]
    simp
  refine ⟨hcount, hcell, ?_⟩
  unfold protocolOutcome
  simp only [runUnits] at hcell ⊢
  rw [hcell]

end Async
